import Mathlib

/-!
Verification of the metablob core (`src/index.tsx`): the smooth-min blended
sphere field, the kinematics updater, the marching-cubes style triangulator and
the central-difference normal estimator.  The code is embedded shallowly over
exact real arithmetic (`ℝ`); `THREE.Vector3` becomes an immutable record,
`Math.random()` becomes an oracle of values in `[0, 1]`, and the mutable scratch
vectors of the source are threaded explicitly where their sharing is observable.
-/

namespace Metablob

/-- A 3-component vector, the value content of a `THREE.Vector3`. -/
@[ext]
structure Vec3 where
  x : ℝ
  y : ℝ
  z : ℝ

namespace Vec3

/-- `THREE.Vector3.length()`: Euclidean norm. -/
noncomputable def length (v : Vec3) : ℝ :=
  Real.sqrt (v.x ^ 2 + v.y ^ 2 + v.z ^ 2)

/-- Componentwise subtraction (`subVectors` / `sub`). -/
def sub (a b : Vec3) : Vec3 :=
  ⟨a.x - b.x, a.y - b.y, a.z - b.z⟩

/-- Componentwise addition (`add`). -/
def add (a b : Vec3) : Vec3 :=
  ⟨a.x + b.x, a.y + b.y, a.z + b.z⟩

/-- Scalar multiple (`multiplyScalar`). -/
def smul (c : ℝ) (v : Vec3) : Vec3 :=
  ⟨c * v.x, c * v.y, c * v.z⟩

/-- `THREE.Vector3.distanceTo`. -/
noncomputable def distanceTo (a b : Vec3) : ℝ :=
  (sub a b).length

/-- `THREE.Vector3.normalize()`: divides by `length() || 1`, so the zero vector
is left unchanged rather than divided by zero. -/
noncomputable def normalize (v : Vec3) : Vec3 :=
  let l := if v.length = 0 then 1 else v.length
  ⟨v.x / l, v.y / l, v.z / l⟩

/-- `lerpVectors(p1, p2, t)`: componentwise `p1 + (p2 - p1) * t`. -/
def lerpVectors (p1 p2 : Vec3) (t : ℝ) : Vec3 :=
  ⟨p1.x + (p2.x - p1.x) * t, p1.y + (p2.y - p1.y) * t, p1.z + (p2.z - p1.z) * t⟩

end Vec3

/-- One emitter sphere (`spheres` array element, lines 203-216). -/
structure Sphere where
  position : Vec3
  target : Vec3
  radius : ℝ
  speed : ℝ

/-- The tunable parameters read by the core (`params` object, lines 27-39;
fields irrelevant to the core — material, UI — are omitted). -/
structure Params where
  smoothK : ℝ
  speed : ℝ
  targetRadius : ℝ
  radiusVariance : ℝ
  cellsPerAxis : ℤ
  volumeRadius : ℝ
  isoLevel : ℝ

/-- The `params` literal of lines 27-39. -/
def defaultParams : Params :=
  { smoothK := 0.075
    speed := 0.15
    targetRadius := 0.0125
    radiusVariance := 0.125
    cellsPerAxis := 40
    volumeRadius := 0.175
    isoLevel := 0 }

/-- `sdf_sphere(p, center, radius)` (lines 253-255). -/
noncomputable def sdf_sphere (p center : Vec3) (radius : ℝ) : ℝ :=
  p.distanceTo center - radius

/-- `smin(a, b, k)` (lines 257-260).  `Math.max(0, Math.min(1, u))` is the
clamp of `u` to `[0, 1]`. -/
noncomputable def smin (a b k : ℝ) : ℝ :=
  let h := max 0 (min 1 (0.5 + 0.5 * (b - a) / k))
  a * h + b * (1 - h) - k * h * (1 - h)

/-- `fieldValue(worldPos)` (lines 262-269): fold of `smin` over the emitter
list, accumulator seeded with the sentinel `1e9`. -/
noncomputable def fieldValue (spheres : List Sphere) (k : ℝ) (worldPos : Vec3) : ℝ :=
  spheres.foldl (fun d s => smin d (sdf_sphere worldPos s.position s.radius) k) 1e9

/-- `interpolateVertex(p1, p2, v1, v2)` (lines 279-285); `params.isoLevel` is
passed explicitly. -/
noncomputable def interpolateVertex (isoLevel : ℝ) (p1 p2 : Vec3) (v1 v2 : ℝ) : Vec3 :=
  if |isoLevel - v1| < 1e-5 then p1
  else if |isoLevel - v2| < 1e-5 then p2
  else if |v1 - v2| < 1e-5 then p1
  else Vec3.lerpVectors p1 p2 ((isoLevel - v1) / (v2 - v1))

/-- `estimateNormal(pos)` (lines 271-277), abstracted over the field function
`F` (the source closes over the global sphere list via `fieldValue`). -/
noncomputable def estimateNormalF (F : Vec3 → ℝ) (pos : Vec3) : Vec3 :=
  let h : ℝ := 0.001
  let nx := F ⟨pos.x + h, pos.y, pos.z⟩ - F ⟨pos.x - h, pos.y, pos.z⟩
  let ny := F ⟨pos.x, pos.y + h, pos.z⟩ - F ⟨pos.x, pos.y - h, pos.z⟩
  let nz := F ⟨pos.x, pos.y, pos.z + h⟩ - F ⟨pos.x, pos.y, pos.z - h⟩
  Vec3.normalize ⟨nx, ny, nz⟩

/-- `estimateNormal` applied to the current sphere state. -/
noncomputable def estimateNormal (spheres : List Sphere) (k : ℝ) (pos : Vec3) : Vec3 :=
  estimateNormalF (fieldValue spheres k) pos

/-- Modelled from the spec: the Field Model contract of §4.1 seeds the fold
with the first emitter's SDF value (`d = sdf(point, emitter_0)`, then folds the
remaining emitters with `smin`).  With zero emitters the spec leaves the field
undefined; the sentinel `1e9` is used so the definition is total. -/
noncomputable def fieldValueSpec (spheres : List Sphere) (k : ℝ) (worldPos : Vec3) : ℝ :=
  match spheres with
  | [] => 1e9
  | s :: rest =>
      rest.foldl (fun d t => smin d (sdf_sphere worldPos t.position t.radius) k)
        (sdf_sphere worldPos s.position s.radius)

/-- The padding shared by `reseedSpheres` (line 202) and `updateSpheres`
(line 221): `volumeRadius * (0.3 + smoothK * 3)`. -/
noncomputable def padding (ps : Params) : ℝ :=
  ps.volumeRadius * (0.3 + ps.smoothK * 3)

/-- A fresh random target `((rnd-0.5)*bounds*2, ...)` (lines 229-233 /
240-244), with the three `Math.random()` draws supplied as an oracle. -/
noncomputable def newTarget (bounds : ℝ) (rnd : Fin 3 → ℝ) : Vec3 :=
  ⟨(rnd 0 - 0.5) * bounds * 2, (rnd 1 - 0.5) * bounds * 2, (rnd 2 - 0.5) * bounds * 2⟩

/-- The per-emitter body of `updateSpheres` (lines 224-248). -/
noncomputable def stepSphere (bounds dt : ℝ) (rnd : Fin 3 → ℝ) (s : Sphere) : Sphere :=
  let direction := Vec3.sub s.target s.position
  let distance := direction.length
  if distance < 0.001 then
    { s with target := newTarget bounds rnd }
  else
    let moveStep := s.speed * dt
    if moveStep ≥ distance then
      { s with position := s.target, target := newTarget bounds rnd }
    else
      { s with position := Vec3.add s.position (Vec3.smul moveStep direction.normalize) }

/-- The loop of `updateSpheres`, with `n` indexing each emitter's oracle. -/
noncomputable def updateSpheresAux (bounds dt : ℝ) (rnd : ℕ → Fin 3 → ℝ) :
    ℕ → List Sphere → List Sphere
  | _, [] => []
  | n, s :: rest => stepSphere bounds dt (rnd n) s :: updateSpheresAux bounds dt rnd (n + 1) rest

/-- `updateSpheres(deltaTime)` (lines 220-249). -/
noncomputable def updateSpheres (ps : Params) (rnd : ℕ → Fin 3 → ℝ) (dt : ℝ)
    (spheres : List Sphere) : List Sphere :=
  updateSpheresAux (ps.volumeRadius - padding ps) dt rnd 0 spheres

/-- `reseedSpheres(count)` (lines 198-218).  The i-th emitter consumes the
eight `Math.random()` draws `rnd (8*i) .. rnd (8*i+7)` in source order:
radius, position x y z, target x y z, speed. -/
noncomputable def reseedSpheres (ps : Params) (rnd : ℕ → ℝ) (count : ℕ) : List Sphere :=
  (List.range count).map fun i =>
    { radius := ps.targetRadius + (rnd (8 * i) - 0.5) * 2 * ps.radiusVariance * ps.targetRadius
      position :=
        ⟨(rnd (8 * i + 1) - 0.5) * (ps.volumeRadius - padding ps) * 2,
         (rnd (8 * i + 2) - 0.5) * (ps.volumeRadius - padding ps) * 2,
         (rnd (8 * i + 3) - 0.5) * (ps.volumeRadius - padding ps) * 2⟩
      target :=
        ⟨(rnd (8 * i + 4) - 0.5) * (ps.volumeRadius - padding ps) * 2,
         (rnd (8 * i + 5) - 0.5) * (ps.volumeRadius - padding ps) * 2,
         (rnd (8 * i + 6) - 0.5) * (ps.volumeRadius - padding ps) * 2⟩
      speed := (0.5 + rnd (8 * i + 7) * 1.0) * ps.speed }

/-- All three components lie in `[-bounds, bounds]`. -/
def inCube (bounds : ℝ) (v : Vec3) : Prop :=
  (-bounds ≤ v.x ∧ v.x ≤ bounds) ∧ (-bounds ≤ v.y ∧ v.y ≤ bounds) ∧
    (-bounds ≤ v.z ∧ v.z ≤ bounds)

/-- A sphere used for concrete instances: at rest at the origin. -/
def restSphere : Sphere :=
  { position := ⟨0, 0, 0⟩, target := ⟨0, 0, 0⟩, radius := 0.01, speed := 0 }

/-- A unit sphere at the origin, for concrete fold instances. -/
def unitSphere : Sphere :=
  { position := ⟨0, 0, 0⟩, target := ⟨0, 0, 0⟩, radius := 1, speed := 0 }

/-- The eight corner world positions of a cell (lines 304-311), written from
the cell origin `(cox, coy, coz)` and the cell size. -/
def cornerPositions (cox coy coz cellSize : ℝ) : Fin 8 → Vec3
  | 0 => ⟨cox, coy, coz⟩
  | 1 => ⟨cox + cellSize, coy, coz⟩
  | 2 => ⟨cox + cellSize, coy + cellSize, coz⟩
  | 3 => ⟨cox, coy + cellSize, coz⟩
  | 4 => ⟨cox, coy, coz + cellSize⟩
  | 5 => ⟨cox + cellSize, coy, coz + cellSize⟩
  | 6 => ⟨cox + cellSize, coy + cellSize, coz + cellSize⟩
  | 7 => ⟨cox, coy + cellSize, coz + cellSize⟩

/-- The two corner endpoints of each of the 12 cube edges, read off the
`interpolateVertex` calls of lines 321-332. -/
def edgeCorners : Fin 12 → Fin 8 × Fin 8
  | 0 => (0, 1)
  | 1 => (1, 2)
  | 2 => (2, 3)
  | 3 => (3, 0)
  | 4 => (4, 5)
  | 5 => (5, 6)
  | 6 => (6, 7)
  | 7 => (7, 4)
  | 8 => (0, 4)
  | 9 => (1, 5)
  | 10 => (2, 6)
  | 11 => (3, 7)

/-- The 8-bit case index of lines 313-317: bit `c` is set iff
`cornerValues[c] < isoLevel`.  `cubeIndex |= (1 << c)` over distinct bits is
the sum of the set powers of two. -/
noncomputable def cubeIndex (vals : Fin 8 → ℝ) (isoLevel : ℝ) : ℕ :=
  ∑ c : Fin 8, if vals c < isoLevel then 2 ^ (c : ℕ) else 0

/-- Modelled from the spec: `MarchingCubesTables.js` is not under `src/`.  The
spec describes `edgeTable` as the 256-entry edge-activity mask of the standard
marching-cubes case tables: bit `e` of entry `ci` is set exactly when edge `e`
crosses the isosurface for corner-sign pattern `ci`, i.e. when its two endpoint
corners lie on opposite sides. -/
def edgeTable (ci : ℕ) : ℕ :=
  ∑ e : Fin 12,
    if ci.testBit (edgeCorners e).1 ≠ ci.testBit (edgeCorners e).2
    then 2 ^ (e : ℕ) else 0

/-- Modelled from the spec: the per-case triangle lists of the standard
marching-cubes tables are sequences of edge-index triples terminated by the
sentinel `-1`; their concrete entries are data of `MarchingCubesTables.js`,
which is not under `src/`.  The triangulator below is therefore parameterized
over the table; this sentinel-only stand-in (every case empty) is used where a
closed instance is needed and no theorem depends on the entries. -/
def triTable0 : ℕ → List ℤ := fun _ => [-1]

/-- The interpolated crossing point of edge `e` (lines 321-332). -/
noncomputable def edgeVertex (isoLevel : ℝ) (corners : Fin 8 → Vec3)
    (vals : Fin 8 → ℝ) (e : Fin 12) : Vec3 :=
  interpolateVertex isoLevel (corners (edgeCorners e).1) (corners (edgeCorners e).2)
    (vals (edgeCorners e).1) (vals (edgeCorners e).2)

/-- The triangle loop of line 334: walk the case's triple list until the first
entry of a triple is the sentinel `-1`. -/
def takeTriples : List ℤ → List (ℤ × ℤ × ℤ)
  | a :: b :: c :: rest => if a = -1 then [] else (a, b, c) :: takeTriples rest
  | _ => []

/-- Edge indices stored in the table are in `[0, 12)`; read one as a `Fin 12`. -/
def edgeIdx (t : ℤ) : Fin 12 :=
  ⟨t.toNat % 12, Nat.mod_lt _ (by norm_num)⟩

/-- The normal pushes of lines 343-349.  In the source, `estimateNormal`
returns the shared scratch vector `normal_h` (line 276), so `n1`, `n2` and
`n3` are three references to that one object; after the third call it holds
the gradient at `v3`, and the nine subsequent component reads all go through
that alias.  The first two calls are kept as evaluations whose results are
overwritten. -/
noncomputable def emitNormals (F : Vec3 → ℝ) (v1 v2 v3 : Vec3) : List ℝ :=
  let _normal_h₁ := estimateNormalF F v1
  let _normal_h₂ := estimateNormalF F v2
  let normal_h₃ := estimateNormalF F v3
  [normal_h₃.x, normal_h₃.y, normal_h₃.z,
   normal_h₃.x, normal_h₃.y, normal_h₃.z,
   normal_h₃.x, normal_h₃.y, normal_h₃.z]

/-- The triangle-emission loop of lines 334-350 for an active cell with case
index `ci`: for each stored triple `(t, t+1, t+2)` the vertices are the
interpolated points of edges `t+2`, `t+1`, `t` in that order (winding
reversal), positions pushed componentwise and normals pushed through
`emitNormals`. -/
noncomputable def emitCellTris (tri : ℕ → List ℤ) (F : Vec3 → ℝ) (isoLevel : ℝ)
    (corners : Fin 8 → Vec3) (ci : ℕ) : List ℝ × List ℝ :=
  ((takeTriples (tri ci)).flatMap fun t =>
      let v1 := edgeVertex isoLevel corners (fun c => F (corners c)) (edgeIdx t.2.2)
      let v2 := edgeVertex isoLevel corners (fun c => F (corners c)) (edgeIdx t.2.1)
      let v3 := edgeVertex isoLevel corners (fun c => F (corners c)) (edgeIdx t.1)
      [v1.x, v1.y, v1.z, v2.x, v2.y, v2.z, v3.x, v3.y, v3.z],
   (takeTriples (tri ci)).flatMap fun t =>
      emitNormals F
        (edgeVertex isoLevel corners (fun c => F (corners c)) (edgeIdx t.2.2))
        (edgeVertex isoLevel corners (fun c => F (corners c)) (edgeIdx t.2.1))
        (edgeVertex isoLevel corners (fun c => F (corners c)) (edgeIdx t.1)))

/-- One cell of the triangulation (lines 300-350): sample the eight corners,
classify, short-circuit on an inactive case (`edgeTable[cubeIndex] === 0`),
otherwise interpolate edges and emit the case's triangles.  The source
interpolates only the edges whose mask bit is set and reuses a scratch
`edgeIntersection` pool across cells; since the case tables only ever index
masked edges, interpolating on demand is observationally the same.  Returns
the (positions, normals) pushed. -/
noncomputable def emitCell (tri : ℕ → List ℤ) (F : Vec3 → ℝ) (isoLevel : ℝ)
    (corners : Fin 8 → Vec3) : List ℝ × List ℝ :=
  if edgeTable (cubeIndex (fun c => F (corners c)) isoLevel) = 0 then ([], [])
  else emitCellTris tri F isoLevel corners (cubeIndex (fun c => F (corners c)) isoLevel)

/-- The `for (i = 0; i < cells; i++)` index list; empty when `cells ≤ 0`. -/
def cellRange (cells : ℤ) : List ℕ :=
  List.range cells.toNat

/-- `cellSize = (halfSize * 2) / cells` (line 294). -/
noncomputable def cellSizeOf (ps : Params) : ℝ :=
  ps.volumeRadius * 2 / (ps.cellsPerAxis : ℝ)

/-- The eight corners of grid cell `(i, j, k)` (lines 300-311): cell origin
at `origin + index * cellSize` per axis with `origin = -halfSize`. -/
noncomputable def gridCorners (ps : Params) (i j k : ℕ) : Fin 8 → Vec3 :=
  cornerPositions (-ps.volumeRadius + (i : ℝ) * cellSizeOf ps)
    (-ps.volumeRadius + (j : ℝ) * cellSizeOf ps)
    (-ps.volumeRadius + (k : ℝ) * cellSizeOf ps) (cellSizeOf ps)

/-- The per-cell outputs in traversal order: `i` outer, `j` middle, `k`
inner (lines 297-299). -/
noncomputable def meshCells (tri : ℕ → List ℤ) (F : Vec3 → ℝ) (ps : Params) :
    List (List ℝ × List ℝ) :=
  (cellRange ps.cellsPerAxis).flatMap fun i =>
    (cellRange ps.cellsPerAxis).flatMap fun j =>
      (cellRange ps.cellsPerAxis).map fun k =>
        emitCell tri F ps.isoLevel (gridCorners ps i j k)

/-- `updateMesh()` (lines 288-358) abstracted over the field function: the
position buffer is the concatenation of the per-cell position pushes in
traversal order, likewise the normal buffer. -/
noncomputable def updateMeshF (tri : ℕ → List ℤ) (F : Vec3 → ℝ) (ps : Params) :
    List ℝ × List ℝ :=
  ((meshCells tri F ps).flatMap Prod.fst, (meshCells tri F ps).flatMap Prod.snd)

/-- `updateMesh()` on the current sphere state.  The source reads the emitter
list only through `fieldValue` (corner sampling and `estimateNormal`), always
with the same `params.smoothK`. -/
noncomputable def updateMesh (tri : ℕ → List ℤ) (spheres : List Sphere) (ps : Params) :
    List ℝ × List ℝ :=
  updateMeshF tri (fieldValue spheres ps.smoothK) ps

/-- The default parameters with the grid resolution forced to zero. -/
def paramsZeroCells : Params :=
  { defaultParams with cellsPerAxis := 0 }

/-- The corner offset asserted by the claim: x from bit 0, y from bit 1,
z from bit 2 of the corner index. -/
def bitOffset (c : Fin 8) : Vec3 :=
  ⟨if (c : ℕ).testBit 0 then 1 else 0,
   if (c : ℕ).testBit 1 then 1 else 0,
   if (c : ℕ).testBit 2 then 1 else 0⟩

/-- The offset the source actually uses (canonical marching-cubes loop order):
x from bit 0 xor bit 1, y from bit 1, z from bit 2. -/
def loopOffset (c : Fin 8) : Vec3 :=
  ⟨if (c : ℕ).testBit 0 ≠ (c : ℕ).testBit 1 then 1 else 0,
   if (c : ℕ).testBit 1 then 1 else 0,
   if (c : ℕ).testBit 2 then 1 else 0⟩

/-! ### Algebra of `smin` and the field fold -/

/-- When `b` is at least `k` below the accumulator `a`, the blend weight clamps
to `0` and `smin` returns `b` unchanged.  This is what makes the `1e9` sentinel
transparent. -/
theorem smin_of_le {k : ℝ} (hk : 0 < k) {a b : ℝ} (h : b ≤ a - k) :
    smin a b k = b := by
  unfold smin
  have hdiv : (b - a) / k ≤ -1 := by
    rw [div_le_iff hk]
    linarith
  have hu : 0.5 + 0.5 * (b - a) / k ≤ 0 := by
    rw [mul_div_assoc]
    nlinarith
  have hmin : min 1 (0.5 + 0.5 * (b - a) / k) ≤ 0 :=
    le_trans (min_le_right _ _) hu
  rw [max_eq_left hmin]
  ring

/-- `k * h` where `h` is the unclamped blend weight. -/
theorem smin_weight_eq {k : ℝ} (hk : 0 < k) (a b : ℝ) :
    k * (0.5 + 0.5 * (b - a) / k) = 0.5 * k + 0.5 * (b - a) := by
  field_simp

/-- The smooth minimum never exceeds the true minimum (for `k > 0`). -/
theorem smin_le_min {k : ℝ} (hk : 0 < k) (a b : ℝ) :
    smin a b k ≤ min a b := by
  have hform : smin a b k
      = a * max 0 (min 1 (0.5 + 0.5 * (b - a) / k))
        + b * (1 - max 0 (min 1 (0.5 + 0.5 * (b - a) / k)))
        - k * max 0 (min 1 (0.5 + 0.5 * (b - a) / k))
          * (1 - max 0 (min 1 (0.5 + 0.5 * (b - a) / k))) := rfl
  set u : ℝ := 0.5 + 0.5 * (b - a) / k with hu
  have hku : k * u = 0.5 * k + 0.5 * (b - a) := smin_weight_eq hk a b
  rw [hform]
  by_cases h0 : u ≤ 0
  · have hk0 : k * u ≤ 0 := by nlinarith
    rw [hku] at hk0
    have hmax : max 0 (min 1 u) = 0 := max_eq_left (le_trans (min_le_right _ _) h0)
    rw [hmax, min_eq_right (by linarith : b ≤ a)]
    norm_num
  · push_neg at h0
    by_cases h1 : 1 ≤ u
    · have hk1 : k * 1 ≤ k * u := by nlinarith
      rw [hku] at hk1
      have hmax : max 0 (min 1 u) = 1 := by
        rw [min_eq_left h1]
        exact max_eq_right (by norm_num)
      rw [hmax, min_eq_left (by linarith : a ≤ b)]
      norm_num
    · push_neg at h1
      have hklt : k * u < k * 1 := by nlinarith
      have hkgt : 0 < k * u := by positivity
      rw [hku] at hklt hkgt
      have hmax : max 0 (min 1 u) = u := by
        rw [min_eq_right h1.le]
        exact max_eq_right h0.le
      rw [hmax]
      refine le_min ?_ ?_
      · have key : a * u + b * (1 - u) - k * u * (1 - u) - a
            = (1 - u) * ((b - a) - k * u) := by ring
        have hneg : (b - a) - k * u ≤ 0 := by rw [hku]; linarith
        have prod1 : (1 - u) * ((b - a) - k * u) ≤ 0 :=
          mul_nonpos_iff.mpr (Or.inl ⟨by linarith, hneg⟩)
        linarith [key, prod1]
      · have key : a * u + b * (1 - u) - k * u * (1 - u) - b
            = u * ((a - b) - k * (1 - u)) := by ring
        have hneg : (a - b) - k * (1 - u) ≤ 0 := by
          have hrw : k * (1 - u) = k - k * u := by ring
          rw [hrw, hku]
          linarith
        have prod2 : u * ((a - b) - k * (1 - u)) ≤ 0 :=
          mul_nonpos_iff.mpr (Or.inl ⟨h0.le, hneg⟩)
        linarith [key, prod2]

/-- The `smin` fold is bounded by its accumulator and by every folded value. -/
theorem foldl_smin_le {k : ℝ} (hk : 0 < k) :
    ∀ (l : List ℝ) (a : ℝ),
      l.foldl (fun d t => smin d t k) a ≤ a ∧
      ∀ t ∈ l, l.foldl (fun d t => smin d t k) a ≤ t := by
  intro l
  induction l with
  | nil => intro a; exact ⟨le_refl a, by intro t ht; cases ht⟩
  | cons b rest ih =>
    intro a
    have hstep : smin a b k ≤ min a b := smin_le_min hk a b
    obtain ⟨h1, h2⟩ := ih (smin a b k)
    refine ⟨le_trans h1 (le_trans hstep (min_le_left _ _)), ?_⟩
    intro t ht
    rcases List.mem_cons.mp ht with h | h
    · subst h
      exact le_trans h1 (le_trans hstep (min_le_right _ _))
    · exact h2 t h

/-- Folding over the spheres directly equals folding over their SDF values. -/
theorem fieldValue_eq_foldl_map (spheres : List Sphere) (k : ℝ) (p : Vec3) :
    fieldValue spheres k p =
      (spheres.map (fun s => sdf_sphere p s.position s.radius)).foldl
        (fun d t => smin d t k) 1e9 := by
  unfold fieldValue
  rw [List.foldl_map]

/-- C4: for every point and non-empty emitter list, with `k > 0` and every
per-emitter SDF value at most `1e9 - k`, the implementation's fold seeded with
the sentinel `1e9` equals the spec's fold seeded with the first emitter's SDF:
the first `smin` step is transparent because the sentinel exceeds the value by
at least `k`. -/
theorem C4_fold_refinement (spheres : List Sphere) (k : ℝ) (p : Vec3)
    (hk : 0 < k) (hne : spheres ≠ [])
    (hb : ∀ s ∈ spheres, sdf_sphere p s.position s.radius ≤ 1e9 - k) :
    fieldValue spheres k p = fieldValueSpec spheres k p := by
  cases spheres with
  | nil => exact absurd rfl hne
  | cons s rest =>
    unfold fieldValue fieldValueSpec
    simp only [List.foldl_cons]
    congr 1
    exact smin_of_le hk (hb s (List.mem_cons_self s rest))

/-- C5: for `k > 0`, `smin a b k ≤ min a b` for all reals, and consequently
`fieldValue` never exceeds any emitter's SDF value at the query point (hence is
at most their minimum). -/
theorem C5_smin_below_min (spheres : List Sphere) (k : ℝ) (p : Vec3)
    (hk : 0 < k) (hne : spheres ≠ [])
    (hb : ∀ s ∈ spheres, sdf_sphere p s.position s.radius ≤ 1e9 - k) :
    (∀ a b : ℝ, smin a b k ≤ min a b) ∧
      ∀ s ∈ spheres, fieldValue spheres k p ≤ sdf_sphere p s.position s.radius := by
  refine ⟨smin_le_min hk, ?_⟩
  intro s hs
  rw [fieldValue_eq_foldl_map]
  exact (foldl_smin_le hk _ 1e9).2 _ (List.mem_map_of_mem _ hs)

/-! ### Kinematics: reseed and advance -/

/-- A random draw in `[0, 1]` scaled by `(· - 0.5) * bounds * 2` lands in
`[-bounds, bounds]` when `0 ≤ bounds`. -/
theorem scaled_draw_in_bounds {bounds u : ℝ} (hb : 0 ≤ bounds)
    (h0 : 0 ≤ u) (h1 : u ≤ 1) :
    -bounds ≤ (u - 0.5) * bounds * 2 ∧ (u - 0.5) * bounds * 2 ≤ bounds := by
  constructor <;> nlinarith

/-- A fresh target lies in the padded cube when the oracle draws are in
`[0, 1]` and `0 ≤ bounds`. -/
theorem newTarget_inCube {bounds : ℝ} (hb : 0 ≤ bounds) {rnd : Fin 3 → ℝ}
    (hr : ∀ i, 0 ≤ rnd i ∧ rnd i ≤ 1) : inCube bounds (newTarget bounds rnd) :=
  ⟨scaled_draw_in_bounds hb (hr 0).1 (hr 0).2,
   scaled_draw_in_bounds hb (hr 1).1 (hr 1).2,
   scaled_draw_in_bounds hb (hr 2).1 (hr 2).2⟩

/-- C7: one advance tick for a single emitter, with `bounds = R - padding`,
`padding = R * (0.3 + 3k)`, and the three `Math.random()` draws given as an
oracle with values in `[0, 1]`.  If the target is closer than `1e-3` the
target is resampled inside `[-bounds, bounds]^3` and the position is
untouched; else if `speed * dt` covers the remaining distance the position
snaps to the target and the target is resampled; else the position moves by
`normalize(target - position) * speed * dt`; and with `speed = 0` or `dt = 0`
the position is always unchanged. -/
theorem C7_advance_tick (ps : Params) (dt : ℝ) (rnd : Fin 3 → ℝ) (s : Sphere)
    (hdt : 0 ≤ dt) (hb : 0 ≤ ps.volumeRadius - padding ps)
    (hr : ∀ i, 0 ≤ rnd i ∧ rnd i ≤ 1) :
    ((Vec3.sub s.target s.position).length < 0.001 →
      (stepSphere (ps.volumeRadius - padding ps) dt rnd s).position = s.position ∧
      inCube (ps.volumeRadius - padding ps)
        (stepSphere (ps.volumeRadius - padding ps) dt rnd s).target) ∧
    (¬ (Vec3.sub s.target s.position).length < 0.001 →
      s.speed * dt ≥ (Vec3.sub s.target s.position).length →
      (stepSphere (ps.volumeRadius - padding ps) dt rnd s).position = s.target ∧
      inCube (ps.volumeRadius - padding ps)
        (stepSphere (ps.volumeRadius - padding ps) dt rnd s).target) ∧
    (¬ (Vec3.sub s.target s.position).length < 0.001 →
      ¬ s.speed * dt ≥ (Vec3.sub s.target s.position).length →
      (stepSphere (ps.volumeRadius - padding ps) dt rnd s).position =
        Vec3.add s.position
          (Vec3.smul (s.speed * dt) (Vec3.sub s.target s.position).normalize) ∧
      (stepSphere (ps.volumeRadius - padding ps) dt rnd s).target = s.target) ∧
    (s.speed = 0 ∨ dt = 0 →
      (stepSphere (ps.volumeRadius - padding ps) dt rnd s).position = s.position) := by
  refine ⟨?_, ?_, ?_, ?_⟩
  · intro hclose
    rw [stepSphere, if_pos hclose]
    exact ⟨rfl, newTarget_inCube hb hr⟩
  · intro hfar hsnap
    rw [stepSphere, if_neg hfar, if_pos hsnap]
    exact ⟨rfl, newTarget_inCube hb hr⟩
  · intro hfar hmove
    rw [stepSphere, if_neg hfar, if_neg hmove]
    exact ⟨rfl, rfl⟩
  · intro hzero
    have hms : s.speed * dt = 0 := by
      rcases hzero with h | h <;> rw [h] <;> ring
    by_cases hclose : (Vec3.sub s.target s.position).length < 0.001
    · rw [stepSphere, if_pos hclose]
    · have hpos : ¬ s.speed * dt ≥ (Vec3.sub s.target s.position).length := by
        push_neg at hclose ⊢
        rw [hms]
        linarith
      rw [stepSphere, if_neg hclose, if_neg hpos]
      show Vec3.add s.position
        (Vec3.smul (s.speed * dt) (Vec3.sub s.target s.position).normalize) = s.position
      rw [hms]
      ext <;> simp [Vec3.add, Vec3.smul]

/-- Witness for C7 at a concrete input: with `dt = 0`, the default parameters,
a constant oracle `1/2` and an emitter at rest, the position is unchanged. -/
theorem C7_witness :
    (stepSphere (defaultParams.volumeRadius - padding defaultParams) 0
      (fun _ => 0.5) restSphere).position = restSphere.position := by
  have h := C7_advance_tick defaultParams 0 (fun _ => 0.5) restSphere
    (le_refl 0)
    (by rw [padding]; norm_num [defaultParams])
    (by intro i; norm_num)
  exact h.2.2.2 (Or.inr rfl)

/-- C8: after `reseed(n)` with oracle draws in `[0, 1]`, nonnegative target
radius, variance, base speed and positive padded bounds: exactly `n` emitters
exist, every position and target lies in the padded cube, every radius is in
`targetRadius * (1 ± variance)` and every speed is in
`[0.5, 1.5] * baseSpeed`.  The result is a function of the parameters and the
oracle alone — the prior emitter set is not an input, so no mixed old/new set
can be observed by a later `fieldValue` call. -/
theorem C8_reseed (ps : Params) (rnd : ℕ → ℝ) (n : ℕ)
    (hr : ∀ m, 0 ≤ rnd m ∧ rnd m ≤ 1)
    (htr : 0 ≤ ps.targetRadius) (hv : 0 ≤ ps.radiusVariance)
    (hs : 0 ≤ ps.speed) (hb : 0 < ps.volumeRadius - padding ps) :
    (reseedSpheres ps rnd n).length = n ∧
    ∀ s ∈ reseedSpheres ps rnd n,
      inCube (ps.volumeRadius - padding ps) s.position ∧
      inCube (ps.volumeRadius - padding ps) s.target ∧
      (ps.targetRadius * (1 - ps.radiusVariance) ≤ s.radius ∧
        s.radius ≤ ps.targetRadius * (1 + ps.radiusVariance)) ∧
      (0.5 * ps.speed ≤ s.speed ∧ s.speed ≤ 1.5 * ps.speed) := by
  constructor
  · rw [reseedSpheres, List.length_map, List.length_range]
  · intro s hs1
    rw [reseedSpheres, List.mem_map] at hs1
    obtain ⟨i, _, rfl⟩ := hs1
    have hcube : ∀ m, -(ps.volumeRadius - padding ps) ≤
        (rnd m - 0.5) * (ps.volumeRadius - padding ps) * 2 ∧
        (rnd m - 0.5) * (ps.volumeRadius - padding ps) * 2 ≤
          ps.volumeRadius - padding ps := fun m =>
      scaled_draw_in_bounds hb.le (hr m).1 (hr m).2
    refine ⟨⟨hcube _, hcube _, hcube _⟩, ⟨hcube _, hcube _, hcube _⟩, ⟨?_, ?_⟩, ?_, ?_⟩
    · have h0 := (hr (8 * i)).1
      nlinarith [mul_nonneg htr hv]
    · have h1 := (hr (8 * i)).2
      nlinarith [mul_nonneg htr hv]
    · have h0 := (hr (8 * i + 7)).1
      nlinarith
    · have h1 := (hr (8 * i + 7)).2
      nlinarith

/-- Witness for C8 at a concrete input: reseeding two emitters under the
default parameters with the constant oracle `1/2` yields exactly two. -/
theorem C8_witness :
    (reseedSpheres defaultParams (fun _ => 0.5) 2).length = 2 := by
  have h := C8_reseed defaultParams (fun _ => 0.5) 2
    (by intro m; norm_num)
    (by norm_num [defaultParams])
    (by norm_num [defaultParams])
    (by norm_num [defaultParams])
    (by rw [padding]; norm_num [defaultParams])
  exact h.1

/-! ### Empty grids and empty emitter sets -/

/-- With `cellsPerAxis ≤ 0` none of the three loops runs. -/
theorem updateMeshF_of_cells_nonpos (tri : ℕ → List ℤ) (F : Vec3 → ℝ) (ps : Params)
    (h : ps.cellsPerAxis ≤ 0) : updateMeshF tri F ps = ([], []) := by
  have hcells : meshCells tri F ps = [] := by
    unfold meshCells cellRange
    rw [Int.toNat_of_nonpos h]
    rfl
  unfold updateMeshF
  rw [hcells]
  rfl

/-- With no emitters the fold returns its sentinel seed. -/
theorem fieldValue_nil (k : ℝ) (p : Vec3) : fieldValue [] k p = 1e9 := rfl

/-- A constant corner sample `1e9` classifies as case `255` or case `0`. -/
theorem cubeIndex_const (isoLevel : ℝ) (vals : Fin 8 → ℝ)
    (hv : ∀ c, vals c = 1e9) :
    cubeIndex vals isoLevel = if (1e9 : ℝ) < isoLevel then 255 else 0 := by
  unfold cubeIndex
  by_cases h : (1e9 : ℝ) < isoLevel
  · rw [if_pos h]
    have : ∀ c : Fin 8, (if vals c < isoLevel then 2 ^ (c : ℕ) else 0) = 2 ^ (c : ℕ) := by
      intro c
      rw [hv c, if_pos h]
    rw [Finset.sum_congr rfl (fun c _ => this c)]
    decide
  · rw [if_neg h]
    have : ∀ c : Fin 8, (if vals c < isoLevel then 2 ^ (c : ℕ) else 0) = 0 := by
      intro c
      rw [hv c, if_neg h]
    rw [Finset.sum_congr rfl (fun c _ => this c)]
    exact Finset.sum_const_zero

/-- Case 0 activates no edges (all corner bits equal). -/
theorem edgeTable_zero : edgeTable 0 = 0 := by decide

/-- Case 255 activates no edges (all corner bits equal). -/
theorem edgeTable_255 : edgeTable 255 = 0 := by decide

/-- A cell sampled from a constant-`1e9` field is skipped by the
`edgeTable[cubeIndex] === 0` short-circuit, whatever the iso level. -/
theorem emitCell_const_field (tri : ℕ → List ℤ) (F : Vec3 → ℝ) (isoLevel : ℝ)
    (corners : Fin 8 → Vec3) (hF : ∀ p, F p = 1e9) :
    emitCell tri F isoLevel corners = ([], []) := by
  have hci : cubeIndex (fun c => F (corners c)) isoLevel =
      if (1e9 : ℝ) < isoLevel then 255 else 0 :=
    cubeIndex_const isoLevel (fun c => F (corners c)) (fun c => hF (corners c))
  unfold emitCell
  rw [hci]
  by_cases h : (1e9 : ℝ) < isoLevel
  · rw [if_pos h, if_pos edgeTable_255]
  · rw [if_neg h, if_pos edgeTable_zero]

/-- Flattening a list of empty pairs yields empty buffers. -/
theorem flatMap_of_all_nil (l : List (List ℝ × List ℝ))
    (h : ∀ x ∈ l, x = ([], [])) :
    l.flatMap Prod.fst = [] ∧ l.flatMap Prod.snd = [] := by
  induction l with
  | nil => exact ⟨rfl, rfl⟩
  | cons a rest ih =>
    have ha := h a (List.mem_cons_self a rest)
    obtain ⟨h1, h2⟩ := ih (fun x hx => h x (List.mem_cons_of_mem a hx))
    rw [List.flatMap_cons, List.flatMap_cons, h1, h2, ha]
    exact ⟨rfl, rfl⟩

/-- The whole pass over an empty emitter set produces empty buffers. -/
theorem updateMesh_nil (tri : ℕ → List ℤ) (ps : Params) :
    updateMesh tri [] ps = ([], []) := by
  have hmem : ∀ x ∈ meshCells tri (fieldValue [] ps.smoothK) ps, x = ([], []) := by
    intro x hx
    unfold meshCells at hx
    rw [List.mem_flatMap] at hx
    obtain ⟨i, _, hx⟩ := hx
    rw [List.mem_flatMap] at hx
    obtain ⟨j, _, hx⟩ := hx
    rw [List.mem_map] at hx
    obtain ⟨k, _, rfl⟩ := hx
    exact emitCell_const_field _ _ _ _ (fun p => rfl)
  obtain ⟨h1, h2⟩ := flatMap_of_all_nil _ hmem
  unfold updateMesh updateMeshF
  rw [h1, h2]

/-- C2 counterexample: the claim asserts that `updateMesh` rejects a call with
zero emitters or non-positive `cellsPerAxis` instead of completing normally
with empty buffers.  The source has no precondition check and no failure path:
at the concrete input `cellsPerAxis = 0` with no emitters the pass completes
normally and returns empty position and normal buffers. -/
theorem C2_counterexample :
    updateMesh triTable0 [] paramsZeroCells = ([], []) := by
  unfold updateMesh
  exact updateMeshF_of_cells_nonpos _ _ _ (le_refl 0)

/-- C2 as amended: `updateMesh` invoked with `cellsPerAxis ≤ 0` or with zero
emitters performs no precondition check; it completes normally and returns
empty position and normal buffers, for every such input. -/
theorem C2_no_precondition_check (tri : ℕ → List ℤ) (spheres : List Sphere)
    (ps : Params) (h : ps.cellsPerAxis ≤ 0 ∨ spheres = []) :
    updateMesh tri spheres ps = ([], []) := by
  rcases h with h | h
  · unfold updateMesh
    exact updateMeshF_of_cells_nonpos _ _ _ h
  · subst h
    exact updateMesh_nil tri ps

/-- Witness for C2 (amended) at a concrete input: zero grid resolution with a
non-empty emitter set still returns normally with empty buffers. -/
theorem C2_witness :
    updateMesh triTable0 [restSphere] paramsZeroCells = ([], []) :=
  C2_no_precondition_check triTable0 [restSphere] paramsZeroCells (Or.inl (le_refl 0))

/-! ### Corner numbering -/

/-- C3 counterexample: at cell `(0,0,0)` with origin `0` and cell size `1`,
corner `2` sits at offset `(1,1,0)`, but the claim's bit decomposition
(x = bit 0, y = bit 1, z = bit 2 of `c = 2`) yields `(0,1,0)`. -/
theorem C3_counterexample :
    cornerPositions 0 0 0 1 2 = ⟨1, 1, 0⟩ ∧
    Vec3.add ⟨0, 0, 0⟩ (Vec3.smul 1 (bitOffset 2)) = ⟨0, 1, 0⟩ ∧
    cornerPositions 0 0 0 1 2 ≠ Vec3.add ⟨0, 0, 0⟩ (Vec3.smul 1 (bitOffset 2)) := by
  have h1 : cornerPositions 0 0 0 1 2 = ⟨1, 1, 0⟩ := by
    show (⟨0 + 1, 0 + 1, 0⟩ : Vec3) = ⟨1, 1, 0⟩
    norm_num
  have h2 : Vec3.add ⟨0, 0, 0⟩ (Vec3.smul 1 (bitOffset 2)) = ⟨0, 1, 0⟩ := by
    show (⟨0 + 1 * 0, 0 + 1 * 1, 0 + 1 * 0⟩ : Vec3) = ⟨0, 1, 0⟩
    norm_num
  refine ⟨h1, h2, ?_⟩
  rw [h1, h2]
  intro hcontra
  have := congrArg Vec3.x hcontra
  norm_num at this

/-- C3 as amended: every corner's world position equals the cell origin plus
`cellSize` times the canonical loop-order offset, whose x component is
bit 0 xor bit 1 of the corner index, y component bit 1, and z component
bit 2. -/
theorem C3_corner_offsets (origin cellSize : ℝ) (i j k : ℕ) (c : Fin 8) :
    cornerPositions (origin + i * cellSize) (origin + j * cellSize)
        (origin + k * cellSize) cellSize c =
      Vec3.add ⟨origin + i * cellSize, origin + j * cellSize, origin + k * cellSize⟩
        (Vec3.smul cellSize (loopOffset c)) := by
  fin_cases c <;> ext <;>
    simp +decide [cornerPositions, loopOffset, Vec3.add, Vec3.smul]

/-! ### Zero elapsed time -/

/-- `stepSphere` never writes `radius`. -/
theorem stepSphere_radius (bounds dt : ℝ) (rnd : Fin 3 → ℝ) (s : Sphere) :
    (stepSphere bounds dt rnd s).radius = s.radius := by
  simp only [stepSphere]
  split_ifs <;> rfl

/-- With `dt = 0` every branch of `stepSphere` leaves the position alone. -/
theorem stepSphere_zero_dt (bounds : ℝ) (rnd : Fin 3 → ℝ) (s : Sphere) :
    (stepSphere bounds 0 rnd s).position = s.position := by
  unfold stepSphere
  by_cases hclose : (Vec3.sub s.target s.position).length < 0.001
  · rw [if_pos hclose]
  · have hneg : ¬ s.speed * 0 ≥ (Vec3.sub s.target s.position).length := by
      push_neg at hclose ⊢
      rw [mul_zero]
      linarith
    rw [if_neg hclose, if_neg hneg]
    show Vec3.add s.position
      (Vec3.smul (s.speed * 0) (Vec3.sub s.target s.position).normalize) = s.position
    rw [mul_zero]
    ext <;> simp [Vec3.add, Vec3.smul]

/-- The zero-`dt` tick preserves every position and radius. -/
theorem updateSpheresAux_zero_dt (bounds : ℝ) (rnd : ℕ → Fin 3 → ℝ) :
    ∀ (n : ℕ) (spheres : List Sphere),
      (updateSpheresAux bounds 0 rnd n spheres).map (fun s => (s.position, s.radius)) =
        spheres.map (fun s => (s.position, s.radius)) := by
  intro n spheres
  induction spheres generalizing n with
  | nil => rfl
  | cons s rest ih =>
    rw [updateSpheresAux, List.map_cons, List.map_cons, ih (n + 1)]
    rw [stepSphere_zero_dt, stepSphere_radius]

/-- `fieldValue` reads an emitter only through its position and radius. -/
theorem fieldValue_congr (k : ℝ) (p : Vec3) {s1 s2 : List Sphere}
    (h : s1.map (fun s => (s.position, s.radius)) = s2.map (fun s => (s.position, s.radius))) :
    fieldValue s1 k p = fieldValue s2 k p := by
  rw [fieldValue_eq_foldl_map, fieldValue_eq_foldl_map]
  have h1 : s1.map (fun s => sdf_sphere p s.position s.radius) =
      (s1.map (fun s => (s.position, s.radius))).map (fun q => sdf_sphere p q.1 q.2) := by
    rw [List.map_map]
    rfl
  have h2 : s2.map (fun s => sdf_sphere p s.position s.radius) =
      (s2.map (fun s => (s.position, s.radius))).map (fun q => sdf_sphere p q.1 q.2) := by
    rw [List.map_map]
    rfl
  rw [h1, h2, h]

/-- C9: a full tick with `dt = 0` leaves every emitter's position unchanged
(emitters already at their target only resample a random target) and — since
`updateMesh` reads emitters only through position and radius, both preserved —
the triangulation pass reproduces the previous tick's position and normal
buffers exactly. -/
theorem C9_zero_dt_idempotent (tri : ℕ → List ℤ) (ps : Params)
    (rnd : ℕ → Fin 3 → ℝ) (spheres : List Sphere) :
    (updateSpheres ps rnd 0 spheres).map Sphere.position =
      spheres.map Sphere.position ∧
    updateMesh tri (updateSpheres ps rnd 0 spheres) ps = updateMesh tri spheres ps := by
  have hmap := updateSpheresAux_zero_dt (ps.volumeRadius - padding ps) rnd 0 spheres
  constructor
  · have hfst := congrArg (List.map Prod.fst) hmap
    rw [List.map_map, List.map_map] at hfst
    exact hfst
  · have hF : fieldValue (updateSpheres ps rnd 0 spheres) ps.smoothK =
        fieldValue spheres ps.smoothK :=
      funext fun p => fieldValue_congr ps.smoothK p hmap
    unfold updateMesh
    rw [hF]

/-- C10: with an empty emitter list the field is the constant sentinel `1e9`;
for any `isoLevel` below `1e9` every cell classifies as case `0`, and the
triangulation pass completes normally with empty position and normal
buffers. -/
theorem C10_empty_field (tri : ℕ → List ℤ) (ps : Params)
    (hiso : ps.isoLevel < 1e9) :
    (∀ (k : ℝ) (p : Vec3), fieldValue [] k p = 1e9) ∧
    (∀ corners : Fin 8 → Vec3,
      cubeIndex (fun c => fieldValue [] ps.smoothK (corners c)) ps.isoLevel = 0) ∧
    updateMesh tri [] ps = ([], []) := by
  refine ⟨fun k p => rfl, ?_, updateMesh_nil tri ps⟩
  intro corners
  rw [cubeIndex_const ps.isoLevel (fun c => fieldValue [] ps.smoothK (corners c))
    (fun c => rfl), if_neg (not_lt.mpr hiso.le)]

/-- Witness for C10 at a concrete input: the default parameters
(`isoLevel = 0`) with no emitters yield empty buffers. -/
theorem C10_witness :
    updateMesh triTable0 [] defaultParams = ([], []) :=
  (C10_empty_field triTable0 defaultParams (by norm_num [defaultParams])).2.2

/-- C6: for any two points, any isosurface level and equal corner values
`v1 = v2 = v`, `interpolateVertex` returns `p1` exactly — through the first
guard when `|isoLevel - v| < 1e-5` and through the degenerate-edge guard
otherwise (the second guard cannot fire once the first has failed, because its
condition is the same number). -/
theorem C6_degenerate_edge (isoLevel : ℝ) (p1 p2 : Vec3) (v : ℝ) :
    interpolateVertex isoLevel p1 p2 v v = p1 := by
  unfold interpolateVertex
  by_cases h1 : |isoLevel - v| < 1e-5
  · rw [if_pos h1]
  · rw [if_neg h1, if_neg h1, if_pos]
    rw [sub_self, abs_zero]
    norm_num

/-! ### Concrete field evaluations for the single-sphere scene -/

/-- With the single resting sphere (center origin, radius `0.01`) the field at
`q` is the distance to the origin minus `0.01`, provided that distance stays
below the sentinel threshold (here: at most `1`). -/
theorem fieldValue_restSphere (q : Vec3)
    (h : Real.sqrt ((q.x - 0) ^ 2 + (q.y - 0) ^ 2 + (q.z - 0) ^ 2) ≤ 1) :
    fieldValue [restSphere] 0.075 q =
      Real.sqrt ((q.x - 0) ^ 2 + (q.y - 0) ^ 2 + (q.z - 0) ^ 2) - 0.01 := by
  show smin 1e9 (sdf_sphere q restSphere.position restSphere.radius) 0.075 = _
  have hsdf : sdf_sphere q restSphere.position restSphere.radius =
      Real.sqrt ((q.x - 0) ^ 2 + (q.y - 0) ^ 2 + (q.z - 0) ^ 2) - 0.01 := rfl
  rw [hsdf]
  exact smin_of_le (by norm_num) (by linarith)

/-- The single-sphere field on the positive x axis. -/
theorem fieldValue_x_axis {x : ℝ} (h0 : 0 ≤ x) (h1 : x ≤ 1) :
    fieldValue [restSphere] 0.075 ⟨x, 0, 0⟩ = x - 0.01 := by
  have hs : Real.sqrt ((x - 0) ^ 2 + ((0 : ℝ) - 0) ^ 2 + ((0 : ℝ) - 0) ^ 2) = x := by
    rw [show (x - 0) ^ 2 + ((0 : ℝ) - 0) ^ 2 + ((0 : ℝ) - 0) ^ 2 = x ^ 2 by ring]
    exact Real.sqrt_sq h0
  have hb : Real.sqrt ((x - 0) ^ 2 + ((0 : ℝ) - 0) ^ 2 + ((0 : ℝ) - 0) ^ 2) ≤ 1 := by
    rw [hs]; exact h1
  rw [fieldValue_restSphere ⟨x, 0, 0⟩ hb]
  show Real.sqrt ((x - 0) ^ 2 + ((0 : ℝ) - 0) ^ 2 + ((0 : ℝ) - 0) ^ 2) - 0.01 = x - 0.01
  rw [hs]

/-- The single-sphere field on the positive y axis. -/
theorem fieldValue_y_axis {y : ℝ} (h0 : 0 ≤ y) (h1 : y ≤ 1) :
    fieldValue [restSphere] 0.075 ⟨0, y, 0⟩ = y - 0.01 := by
  have hs : Real.sqrt (((0 : ℝ) - 0) ^ 2 + (y - 0) ^ 2 + ((0 : ℝ) - 0) ^ 2) = y := by
    rw [show ((0 : ℝ) - 0) ^ 2 + (y - 0) ^ 2 + ((0 : ℝ) - 0) ^ 2 = y ^ 2 by ring]
    exact Real.sqrt_sq h0
  have hb : Real.sqrt (((0 : ℝ) - 0) ^ 2 + (y - 0) ^ 2 + ((0 : ℝ) - 0) ^ 2) ≤ 1 := by
    rw [hs]; exact h1
  rw [fieldValue_restSphere ⟨0, y, 0⟩ hb]
  show Real.sqrt (((0 : ℝ) - 0) ^ 2 + (y - 0) ^ 2 + ((0 : ℝ) - 0) ^ 2) - 0.01 = y - 0.01
  rw [hs]

/-- The single-sphere field is even in x. -/
theorem fieldValue_x_symm (x y z : ℝ) :
    fieldValue [restSphere] 0.075 ⟨x, y, z⟩ = fieldValue [restSphere] 0.075 ⟨-x, y, z⟩ := by
  show smin 1e9 (Real.sqrt ((x - 0) ^ 2 + (y - 0) ^ 2 + (z - 0) ^ 2) - 0.01) 0.075
    = smin 1e9 (Real.sqrt ((-x - 0) ^ 2 + (y - 0) ^ 2 + (z - 0) ^ 2) - 0.01) 0.075
  rw [show (x - 0) ^ 2 + (y - 0) ^ 2 + (z - 0) ^ 2
    = (-x - 0) ^ 2 + (y - 0) ^ 2 + (z - 0) ^ 2 by ring]

/-- The single-sphere field is even in y. -/
theorem fieldValue_y_symm (x y z : ℝ) :
    fieldValue [restSphere] 0.075 ⟨x, y, z⟩ = fieldValue [restSphere] 0.075 ⟨x, -y, z⟩ := by
  show smin 1e9 (Real.sqrt ((x - 0) ^ 2 + (y - 0) ^ 2 + (z - 0) ^ 2) - 0.01) 0.075
    = smin 1e9 (Real.sqrt ((x - 0) ^ 2 + (-y - 0) ^ 2 + (z - 0) ^ 2) - 0.01) 0.075
  rw [show (x - 0) ^ 2 + (y - 0) ^ 2 + (z - 0) ^ 2
    = (x - 0) ^ 2 + (-y - 0) ^ 2 + (z - 0) ^ 2 by ring]

/-- The single-sphere field is even in z. -/
theorem fieldValue_z_symm (x y z : ℝ) :
    fieldValue [restSphere] 0.075 ⟨x, y, z⟩ = fieldValue [restSphere] 0.075 ⟨x, y, -z⟩ := by
  show smin 1e9 (Real.sqrt ((x - 0) ^ 2 + (y - 0) ^ 2 + (z - 0) ^ 2) - 0.01) 0.075
    = smin 1e9 (Real.sqrt ((x - 0) ^ 2 + (y - 0) ^ 2 + (-z - 0) ^ 2) - 0.01) 0.075
  rw [show (x - 0) ^ 2 + (y - 0) ^ 2 + (z - 0) ^ 2
    = (x - 0) ^ 2 + (y - 0) ^ 2 + (-z - 0) ^ 2 by ring]

/-- Normalizing a positive-x-axis vector gives the unit x vector. -/
theorem normalize_axis_x {a : ℝ} (ha : 0 < a) :
    Vec3.normalize ⟨a, 0, 0⟩ = ⟨1, 0, 0⟩ := by
  simp only [Vec3.normalize, Vec3.length]
  have hs : Real.sqrt (a ^ 2 + (0 : ℝ) ^ 2 + (0 : ℝ) ^ 2) = a := by
    rw [show a ^ 2 + (0 : ℝ) ^ 2 + (0 : ℝ) ^ 2 = a ^ 2 by ring]
    exact Real.sqrt_sq ha.le
  rw [hs, if_neg ha.ne']
  ext <;> simp [div_self ha.ne']

/-- Normalizing a positive-y-axis vector gives the unit y vector. -/
theorem normalize_axis_y {a : ℝ} (ha : 0 < a) :
    Vec3.normalize ⟨0, a, 0⟩ = ⟨0, 1, 0⟩ := by
  simp only [Vec3.normalize, Vec3.length]
  have hs : Real.sqrt ((0 : ℝ) ^ 2 + a ^ 2 + (0 : ℝ) ^ 2) = a := by
    rw [show (0 : ℝ) ^ 2 + a ^ 2 + (0 : ℝ) ^ 2 = a ^ 2 by ring]
    exact Real.sqrt_sq ha.le
  rw [hs, if_neg ha.ne']
  ext <;> simp [div_self ha.ne']

/-- The gradient normal at `(0.1, 0, 0)` of the single-sphere field points
along x. -/
theorem estimateNormal_x_point :
    estimateNormalF (fieldValue [restSphere] 0.075) ⟨0.1, 0, 0⟩ = ⟨1, 0, 0⟩ := by
  have hx1 : fieldValue [restSphere] 0.075 ⟨0.1 + 0.001, 0, 0⟩ = 0.101 - 0.01 := by
    rw [show (0.1 : ℝ) + 0.001 = 0.101 by norm_num]
    exact fieldValue_x_axis (by norm_num) (by norm_num)
  have hx2 : fieldValue [restSphere] 0.075 ⟨0.1 - 0.001, 0, 0⟩ = 0.099 - 0.01 := by
    rw [show (0.1 : ℝ) - 0.001 = 0.099 by norm_num]
    exact fieldValue_x_axis (by norm_num) (by norm_num)
  have hy : fieldValue [restSphere] 0.075 ⟨0.1, 0 + 0.001, 0⟩ -
      fieldValue [restSphere] 0.075 ⟨0.1, 0 - 0.001, 0⟩ = 0 := by
    rw [show (0 : ℝ) - 0.001 = -(0 + 0.001) by norm_num, ← fieldValue_y_symm]
    exact sub_self _
  have hz : fieldValue [restSphere] 0.075 ⟨0.1, 0, 0 + 0.001⟩ -
      fieldValue [restSphere] 0.075 ⟨0.1, 0, 0 - 0.001⟩ = 0 := by
    rw [show (0 : ℝ) - 0.001 = -(0 + 0.001) by norm_num, ← fieldValue_z_symm]
    exact sub_self _
  show Vec3.normalize
    ⟨fieldValue [restSphere] 0.075 ⟨0.1 + 0.001, 0, 0⟩ -
        fieldValue [restSphere] 0.075 ⟨0.1 - 0.001, 0, 0⟩,
      fieldValue [restSphere] 0.075 ⟨0.1, 0 + 0.001, 0⟩ -
        fieldValue [restSphere] 0.075 ⟨0.1, 0 - 0.001, 0⟩,
      fieldValue [restSphere] 0.075 ⟨0.1, 0, 0 + 0.001⟩ -
        fieldValue [restSphere] 0.075 ⟨0.1, 0, 0 - 0.001⟩⟩ = ⟨1, 0, 0⟩
  rw [hx1, hx2, hy, hz,
    show (0.101 : ℝ) - 0.01 - (0.099 - 0.01) = 0.002 by norm_num]
  exact normalize_axis_x (by norm_num)

/-- The gradient normal at `(0, 0.1, 0)` of the single-sphere field points
along y. -/
theorem estimateNormal_y_point :
    estimateNormalF (fieldValue [restSphere] 0.075) ⟨0, 0.1, 0⟩ = ⟨0, 1, 0⟩ := by
  have hx : fieldValue [restSphere] 0.075 ⟨0 + 0.001, 0.1, 0⟩ -
      fieldValue [restSphere] 0.075 ⟨0 - 0.001, 0.1, 0⟩ = 0 := by
    rw [show (0 : ℝ) - 0.001 = -(0 + 0.001) by norm_num, ← fieldValue_x_symm]
    exact sub_self _
  have hy1 : fieldValue [restSphere] 0.075 ⟨0, 0.1 + 0.001, 0⟩ = 0.101 - 0.01 := by
    rw [show (0.1 : ℝ) + 0.001 = 0.101 by norm_num]
    exact fieldValue_y_axis (by norm_num) (by norm_num)
  have hy2 : fieldValue [restSphere] 0.075 ⟨0, 0.1 - 0.001, 0⟩ = 0.099 - 0.01 := by
    rw [show (0.1 : ℝ) - 0.001 = 0.099 by norm_num]
    exact fieldValue_y_axis (by norm_num) (by norm_num)
  have hz : fieldValue [restSphere] 0.075 ⟨0, 0.1, 0 + 0.001⟩ -
      fieldValue [restSphere] 0.075 ⟨0, 0.1, 0 - 0.001⟩ = 0 := by
    rw [show (0 : ℝ) - 0.001 = -(0 + 0.001) by norm_num, ← fieldValue_z_symm]
    exact sub_self _
  show Vec3.normalize
    ⟨fieldValue [restSphere] 0.075 ⟨0 + 0.001, 0.1, 0⟩ -
        fieldValue [restSphere] 0.075 ⟨0 - 0.001, 0.1, 0⟩,
      fieldValue [restSphere] 0.075 ⟨0, 0.1 + 0.001, 0⟩ -
        fieldValue [restSphere] 0.075 ⟨0, 0.1 - 0.001, 0⟩,
      fieldValue [restSphere] 0.075 ⟨0, 0.1, 0 + 0.001⟩ -
        fieldValue [restSphere] 0.075 ⟨0, 0.1, 0 - 0.001⟩⟩ = ⟨0, 1, 0⟩
  rw [hx, hy1, hy2, hz,
    show (0.101 : ℝ) - 0.01 - (0.099 - 0.01) = 0.002 by norm_num]
  exact normalize_axis_y (by norm_num)

/-- C1: evaluation of the code at the failing input.  For the triangle with
`v1 = v2 = (0.1, 0, 0)` and `v3 = (0, 0.1, 0)` over the single-sphere field,
the nine normal components pushed by lines 343-349 are three copies of the
gradient normal at `v3` — in particular the normal stored for the first
vertex is `(0, 1, 0)` — while that vertex's own central-difference gradient
normal is `(1, 0, 0)`: the shared scratch vector `normal_h` aliases `n1`,
`n2` and `n3`, so every emitted vertex receives the third vertex's normal,
not its own. -/
theorem C1_per_vertex_normal_aliasing :
    emitNormals (fieldValue [restSphere] 0.075) ⟨0.1, 0, 0⟩ ⟨0.1, 0, 0⟩ ⟨0, 0.1, 0⟩ =
      [0, 1, 0, 0, 1, 0, 0, 1, 0] ∧
    estimateNormalF (fieldValue [restSphere] 0.075) ⟨0.1, 0, 0⟩ = ⟨1, 0, 0⟩ ∧
    (⟨1, 0, 0⟩ : Vec3) ≠ (⟨0, 1, 0⟩ : Vec3) := by
  refine ⟨?_, estimateNormal_x_point, ?_⟩
  · show [(estimateNormalF (fieldValue [restSphere] 0.075) ⟨0, 0.1, 0⟩).x,
      (estimateNormalF (fieldValue [restSphere] 0.075) ⟨0, 0.1, 0⟩).y,
      (estimateNormalF (fieldValue [restSphere] 0.075) ⟨0, 0.1, 0⟩).z,
      (estimateNormalF (fieldValue [restSphere] 0.075) ⟨0, 0.1, 0⟩).x,
      (estimateNormalF (fieldValue [restSphere] 0.075) ⟨0, 0.1, 0⟩).y,
      (estimateNormalF (fieldValue [restSphere] 0.075) ⟨0, 0.1, 0⟩).z,
      (estimateNormalF (fieldValue [restSphere] 0.075) ⟨0, 0.1, 0⟩).x,
      (estimateNormalF (fieldValue [restSphere] 0.075) ⟨0, 0.1, 0⟩).y,
      (estimateNormalF (fieldValue [restSphere] 0.075) ⟨0, 0.1, 0⟩).z] =
        ([0, 1, 0, 0, 1, 0, 0, 1, 0] : List ℝ)
    rw [estimateNormal_y_point]
  · intro hcontra
    have hx := congrArg Vec3.x hcontra
    norm_num at hx

/-! ### Concrete instances for the field refinement and bound -/

/-- The unit sphere's SDF at `(3, 4, 0)` is `5 - 1 = 4`. -/
theorem sdf_unitSphere_eval :
    sdf_sphere ⟨3, 4, 0⟩ unitSphere.position unitSphere.radius = 4 := by
  show Real.sqrt (((3 : ℝ) - 0) ^ 2 + ((4 : ℝ) - 0) ^ 2 + ((0 : ℝ) - 0) ^ 2) - 1 = 4
  rw [show ((3 : ℝ) - 0) ^ 2 + ((4 : ℝ) - 0) ^ 2 + ((0 : ℝ) - 0) ^ 2 = 5 ^ 2 by norm_num]
  rw [Real.sqrt_sq (by norm_num : (0 : ℝ) ≤ 5)]
  norm_num

/-- Witness for C4 at a concrete input: one unit sphere, `k = 1`, the query
point `(3, 4, 0)` (SDF value `4`, well below `1e9 - 1`). -/
theorem C4_witness :
    fieldValue [unitSphere] 1 ⟨3, 4, 0⟩ = fieldValueSpec [unitSphere] 1 ⟨3, 4, 0⟩ :=
  C4_fold_refinement [unitSphere] 1 ⟨3, 4, 0⟩ (by norm_num)
    (List.cons_ne_nil _ _)
    (by
      intro s hs
      rw [List.mem_singleton] at hs
      subst hs
      rw [sdf_unitSphere_eval]
      norm_num)

/-- Witness for C5 at the same concrete input: the blended field value does
not exceed the unit sphere's SDF value there. -/
theorem C5_witness :
    fieldValue [unitSphere] 1 ⟨3, 4, 0⟩ ≤
      sdf_sphere ⟨3, 4, 0⟩ unitSphere.position unitSphere.radius :=
  (C5_smin_below_min [unitSphere] 1 ⟨3, 4, 0⟩ (by norm_num)
    (List.cons_ne_nil _ _)
    (by
      intro s hs
      rw [List.mem_singleton] at hs
      subst hs
      rw [sdf_unitSphere_eval]
      norm_num)).2 unitSphere (List.mem_singleton_self _)

end Metablob
